import Mathlib

/-!
Verification of the os-release line parser (`src/lib.rs`).

Strings are modelled as `List Char`.  The Rust functions `is_enclosed_with`,
`parse_line` and the `FromIterator<String> for OsRelease` loop body are
embedded directly.  Rust operations that can panic (string slicing with an
inverted range) are modelled with `Option`, `none` standing for a panic.
-/

/-- Rust `char::is_whitespace`: the Unicode White_Space property. -/
def rustIsWhitespace (c : Char) : Bool :=
  c.val == 0x09 || c.val == 0x0A || c.val == 0x0B || c.val == 0x0C ||
  c.val == 0x0D || c.val == 0x20 || c.val == 0x85 || c.val == 0xA0 ||
  c.val == 0x1680 || (0x2000 ≤ c.val && c.val ≤ 0x200A) ||
  c.val == 0x2028 || c.val == 0x2029 || c.val == 0x202F ||
  c.val == 0x205F || c.val == 0x3000

/-- Drop leading whitespace, as one side of Rust `str::trim`. -/
def trimLeft (s : List Char) : List Char := s.dropWhile rustIsWhitespace

/-- Rust `str::trim`: drop trailing whitespace, then leading whitespace. -/
def strTrim (s : List Char) : List Char :=
  trimLeft ((trimLeft s.reverse).reverse)

/-- Rust `line.starts_with(pat)` for string patterns (char-wise comparison,
the byte comparison of UTF-8 agrees with it on valid strings). -/
def starts_with (line pat : List Char) : Bool :=
  match line, pat with
  | _, [] => true
  | [], _ :: _ => false
  | c :: cs, p :: ps => if c = p then starts_with cs ps else false

/-- `fn is_enclosed_with(line: &str, pattern: char) -> bool`:
`line.starts_with(pattern) && line.ends_with(pattern)`. -/
def is_enclosed_with (line : List Char) (pattern : Char) : Bool :=
  line.head? == some pattern && line.getLast? == some pattern

/-- `fn parse_line(line: &str, skip: usize) -> &str`.

The Rust body takes `line[skip..].trim()`, and when the result is enclosed in
matching quotes returns `&line[1..line.len() - 1]`.  When the trimmed text is a
single quote character, both endpoint tests succeed on that same character and
the slice `[1..0]` has its start after its end, which panics; the panic is
modelled as `none`. -/
def parse_line (line : List Char) (skip : Nat) : Option (List Char) :=
  let line := strTrim (line.drop skip)
  if is_enclosed_with line '"' || is_enclosed_with line '\'' then
    if 2 ≤ line.length then some ((line.drop 1).take (line.length - 2))
    else none
  else some line

/-- The known record fields of `struct OsRelease` (the overflow map aside). -/
inductive FieldTag
  | name | version | id | id_like | version_codename | version_id
  | pretty_name | ansi_color | cpe_name | home_url | documentation_url
  | support_url | bug_report_url | privacy_policy_url | build_id
  | variant | variant_id | logo
  deriving DecidableEq, Fintype, Repr

/-- `struct OsRelease`, fields in declaration order; `extra` is the
`BTreeMap<String, String>` overflow, modelled as an association list with
last-write-wins insertion (key order is immaterial to the claims below). -/
structure OsRelease where
  name : List Char
  version : List Char
  id : List Char
  id_like : List Char
  version_codename : List Char
  version_id : List Char
  pretty_name : List Char
  ansi_color : List Char
  cpe_name : List Char
  home_url : List Char
  documentation_url : List Char
  support_url : List Char
  bug_report_url : List Char
  privacy_policy_url : List Char
  build_id : List Char
  variant : List Char
  variant_id : List Char
  logo : List Char
  extra : List (List Char × List Char)
  deriving DecidableEq, Repr

/-- `impl Default for OsRelease`. -/
def OsRelease.default : OsRelease where
  name := String.toList "Linux"
  id := String.toList "linux"
  pretty_name := String.toList "Linux"
  version := []
  id_like := []
  version_codename := []
  version_id := []
  ansi_color := []
  cpe_name := []
  home_url := []
  documentation_url := []
  support_url := []
  bug_report_url := []
  privacy_policy_url := []
  build_id := []
  variant := []
  variant_id := []
  logo := []
  extra := []

/-- The key literal of a field, without the trailing `=`. -/
def fieldKey : FieldTag → List Char
  | .name => String.toList "NAME"
  | .version => String.toList "VERSION"
  | .id => String.toList "ID"
  | .id_like => String.toList "ID_LIKE"
  | .version_codename => String.toList "VERSION_CODENAME"
  | .version_id => String.toList "VERSION_ID"
  | .pretty_name => String.toList "PRETTY_NAME"
  | .ansi_color => String.toList "ANSI_COLOR"
  | .cpe_name => String.toList "CPE_NAME"
  | .home_url => String.toList "HOME_URL"
  | .documentation_url => String.toList "DOCUMENTATION_URL"
  | .support_url => String.toList "SUPPORT_URL"
  | .bug_report_url => String.toList "BUG_REPORT_URL"
  | .privacy_policy_url => String.toList "PRIVACY_POLICY_URL"
  | .build_id => String.toList "BUILD_ID"
  | .variant => String.toList "VARIANT"
  | .variant_id => String.toList "VARIANT_ID"
  | .logo => String.toList "LOGO"

/-- The pattern literal as written in the `map_keys!` invocation: the key
followed by `=` (for example `"NAME="`). -/
def fieldPat (f : FieldTag) : List Char := fieldKey f ++ ['=']

/-- The `map_keys!` dispatch table, in the exact order of the macro
invocation in `from_iter`; the first matching entry wins, which is the
meaning of the macro's sequential `if … continue` expansion. -/
def keyTable : List (List Char × FieldTag) :=
  [(fieldPat .name, .name),
   (fieldPat .version, .version),
   (fieldPat .id, .id),
   (fieldPat .id_like, .id_like),
   (fieldPat .version_id, .version_id),
   (fieldPat .version_codename, .version_codename),
   (fieldPat .pretty_name, .pretty_name),
   (fieldPat .ansi_color, .ansi_color),
   (fieldPat .cpe_name, .cpe_name),
   (fieldPat .home_url, .home_url),
   (fieldPat .documentation_url, .documentation_url),
   (fieldPat .support_url, .support_url),
   (fieldPat .bug_report_url, .bug_report_url),
   (fieldPat .privacy_policy_url, .privacy_policy_url),
   (fieldPat .build_id, .build_id),
   (fieldPat .variant, .variant),
   (fieldPat .variant_id, .variant_id),
   (fieldPat .logo, .logo)]

/-- Assignment `$field = parse_line(..).into()` for each field. -/
def setField (os : OsRelease) (f : FieldTag) (v : List Char) : OsRelease :=
  match f with
  | .name => { os with name := v }
  | .version => { os with version := v }
  | .id => { os with id := v }
  | .id_like => { os with id_like := v }
  | .version_codename => { os with version_codename := v }
  | .version_id => { os with version_id := v }
  | .pretty_name => { os with pretty_name := v }
  | .ansi_color => { os with ansi_color := v }
  | .cpe_name => { os with cpe_name := v }
  | .home_url => { os with home_url := v }
  | .documentation_url => { os with documentation_url := v }
  | .support_url => { os with support_url := v }
  | .bug_report_url => { os with bug_report_url := v }
  | .privacy_policy_url => { os with privacy_policy_url := v }
  | .build_id => { os with build_id := v }
  | .variant => { os with variant := v }
  | .variant_id => { os with variant_id := v }
  | .logo => { os with logo := v }

/-- Projection of a known field. -/
def getField (os : OsRelease) (f : FieldTag) : List Char :=
  match f with
  | .name => os.name
  | .version => os.version
  | .id => os.id
  | .id_like => os.id_like
  | .version_codename => os.version_codename
  | .version_id => os.version_id
  | .pretty_name => os.pretty_name
  | .ansi_color => os.ansi_color
  | .cpe_name => os.cpe_name
  | .home_url => os.home_url
  | .documentation_url => os.documentation_url
  | .support_url => os.support_url
  | .bug_report_url => os.bug_report_url
  | .privacy_policy_url => os.privacy_policy_url
  | .build_id => os.build_id
  | .variant => os.variant
  | .variant_id => os.variant_id
  | .logo => os.logo

/-- Rust `line.find('=')` followed by the two slices `line[..pos]` and
`line[pos + 1..]`: split at the first `=`, `none` when there is no `=`. -/
def splitAtEq : List Char → Option (List Char × List Char)
  | [] => none
  | c :: rest =>
    if c = '=' then some ([], rest)
    else
      match splitAtEq rest with
      | none => none
      | some (k, v) => some (c :: k, v)

/-- `BTreeMap::insert`: replace the value of an existing key, otherwise add
the binding. -/
def btreeInsert (m : List (List Char × List Char)) (k v : List Char) :
    List (List Char × List Char) :=
  match m with
  | [] => [(k, v)]
  | (k', v') :: rest =>
    if k = k' then (k, v) :: rest else (k', v') :: btreeInsert rest k v

/-- `BTreeMap` lookup. -/
def btreeLookup (m : List (List Char × List Char)) (k : List Char) :
    Option (List Char) :=
  match m with
  | [] => none
  | (k', v') :: rest => if k = k' then some v' else btreeLookup rest k

/-- The body of the `for line in lines` loop of
`impl FromIterator<String> for OsRelease`: trim the line, dispatch on the
first matching known prefix (assigning `parse_line`'s result to that field
and skipping the rest of the body), otherwise split at the first `=` and,
when the value part is non-empty, insert it into the overflow map.
`none` models a panic inside `parse_line`. -/
def processLine (os : OsRelease) (raw : List Char) : Option OsRelease :=
  let line := strTrim raw
  match keyTable.find? (fun pf => starts_with line pf.1) with
  | some pf => (parse_line line pf.1.length).map (fun v => setField os pf.2 v)
  | none =>
    match splitAtEq line with
    | some (k, v) =>
      if v = [] then some os
      else some { os with extra := btreeInsert os.extra k v }
    | none => some os

/-- `OsRelease::from_iter`: fold the loop body over the lines, starting from
`OsRelease::default()`.  A panic on any line aborts the whole parse (`none`). -/
def OsRelease.from_iter (lines : List (List Char)) : Option OsRelease :=
  lines.foldlM processLine OsRelease.default

/-! ### Helper lemmas -/

theorem starts_with_pat_nil (l : List Char) : starts_with l [] = true := by
  cases l <;> rfl

theorem starts_with_append (p v : List Char) : starts_with (p ++ v) p = true := by
  induction p with
  | nil => exact starts_with_pat_nil v
  | cons c cs ih => simpa [starts_with] using ih

theorem starts_with_total (l : List Char) :
    ∀ p q : List Char, starts_with l p = true → starts_with l q = true →
    starts_with p q = true ∨ starts_with q p = true := by
  induction l with
  | nil =>
    intro p q hp hq
    cases p with
    | cons c cs => simp [starts_with] at hp
    | nil =>
      cases q with
      | cons d ds => simp [starts_with] at hq
      | nil => left; rfl
  | cons c cs ih =>
    intro p q hp hq
    cases p with
    | nil => right; exact starts_with_pat_nil q
    | cons a as =>
      cases q with
      | nil => left; exact starts_with_pat_nil (a :: as)
      | cons b bs =>
        rw [starts_with] at hp hq
        by_cases hca : c = a
        · by_cases hcb : c = b
          · subst hca; subst hcb
            rw [if_pos rfl] at hp hq
            have := ih as bs hp hq
            simpa [starts_with] using this
          · rw [if_neg hcb] at hq; exact absurd hq (by simp)
        · rw [if_neg hca] at hp; exact absurd hp (by simp)

theorem starts_with_excl {l p q : List Char} (hp : starts_with l p = true)
    (hpq : (starts_with p q || starts_with q p) = false) :
    starts_with l q = false := by
  cases hq : starts_with l q with
  | false => rfl
  | true =>
    rcases starts_with_total l p q hp hq with h | h <;> simp [h] at hpq

theorem starts_with_head {l p : List Char} {c : Char}
    (h : starts_with l p = true) (hc : p.head? = some c) :
    l.head? = some c := by
  cases p with
  | nil => simp at hc
  | cons d ds =>
    cases l with
    | nil => simp [starts_with] at h
    | cons a as =>
      rw [starts_with] at h
      by_cases had : a = d
      · simp only [List.head?_cons] at hc ⊢
        rw [had, hc]
      · rw [if_neg had] at h; exact absurd h (by simp)

theorem splitAtEq_append (k v : List Char) (hk : '=' ∉ k) :
    splitAtEq (k ++ '=' :: v) = some (k, v) := by
  induction k with
  | nil => simp [splitAtEq]
  | cons c cs ih =>
    simp only [List.mem_cons, not_or] at hk
    have hc : ¬(c = '=') := fun h => hk.1 h.symm
    simp [splitAtEq, hc, ih hk.2]

theorem starts_with_keyEq {p k v : List Char} (hp : '=' ∉ p) (hk : '=' ∉ k) :
    starts_with (k ++ '=' :: v) (p ++ ['=']) = true ↔ p = k := by
  induction p generalizing k with
  | nil =>
    cases k with
    | nil => simp [starts_with, starts_with_pat_nil]
    | cons c cs =>
      simp only [List.mem_cons, not_or] at hk
      have hc : ¬(c = '=') := fun h => hk.1 h.symm
      simp [starts_with, hc]
  | cons a ps ih =>
    simp only [List.mem_cons, not_or] at hp
    cases k with
    | nil =>
      have ha : ¬('=' = a) := hp.1
      simp [starts_with, ha]
    | cons c cs =>
      simp only [List.mem_cons, not_or] at hk
      by_cases hca : c = a
      · subst hca
        have := @ih cs hp.2 hk.2
        simpa [starts_with] using this
      · have : ¬(a = c) := fun h => hca h.symm
        simp [starts_with, hca, this]

theorem find?_of_unique {α : Type} (P : α → Bool) (a : α) :
    ∀ l : List α, a ∈ l → P a = true → (∀ b ∈ l, P b = true → b = a) →
    l.find? P = some a := by
  intro l
  induction l with
  | nil => intro h; cases h
  | cons c rest ih =>
    intro hmem ha huniq
    cases hc : P c with
    | true =>
      rw [List.find?_cons_of_pos rest hc, huniq c (List.mem_cons_self c rest) hc]
    | false =>
      rw [List.find?_cons_of_neg rest (by simp [hc])]
      have : a ∈ rest := by
        cases List.mem_cons.mp hmem with
        | inl h => exact absurd (h ▸ ha) (by simp [hc])
        | inr h => exact h
      exact ih this ha fun b hb => huniq b (List.mem_cons_of_mem c hb)

theorem fieldPat_no_cross :
    ∀ f g : FieldTag,
      (starts_with (fieldPat f) (fieldPat g) || starts_with (fieldPat g) (fieldPat f)) = true →
      f = g := by decide

theorem keyTable_mem : ∀ f : FieldTag, (fieldPat f, f) ∈ keyTable := by decide

theorem keyTable_shape :
    ∀ b ∈ keyTable, ∃ g : FieldTag, b = (fieldPat g, g) := by decide

theorem keyTable_find_none {ln : List Char}
    (h : ∀ f, starts_with ln (fieldPat f) = false) :
    keyTable.find? (fun pf => starts_with ln pf.1) = none := by
  rw [List.find?_eq_none]
  intro x hx
  obtain ⟨g, rfl⟩ := keyTable_shape x hx
  simp [h g]

theorem keyTable_find_some {ln : List Char} (f : FieldTag)
    (h : starts_with ln (fieldPat f) = true) :
    keyTable.find? (fun pf => starts_with ln pf.1) = some (fieldPat f, f) := by
  apply find?_of_unique _ _ _ (keyTable_mem f) (by simpa using h)
  intro b hb hPb
  obtain ⟨g, rfl⟩ := keyTable_shape b hb
  have hg : starts_with ln (fieldPat g) = true := by simpa using hPb
  have : g = f := by
    rcases starts_with_total ln (fieldPat f) (fieldPat g) h hg with hh | hh
    · exact (fieldPat_no_cross f g (by simp [hh])).symm
    · exact fieldPat_no_cross g f (by simp [hh])
  rw [this]

theorem getField_setField_ne (os : OsRelease) (f g : FieldTag) (v : List Char)
    (h : g ≠ f) : getField (setField os f v) g = getField os g := by
  cases f <;> cases g <;> first | exact absurd rfl h | rfl

theorem getField_setField_self (os : OsRelease) (f : FieldTag) (v : List Char) :
    getField (setField os f v) f = v := by
  cases f <;> rfl

theorem setField_extra (os : OsRelease) (f : FieldTag) (v : List Char) :
    (setField os f v).extra = os.extra := by
  cases f <;> rfl

theorem btreeLookup_insert_self (m : List (List Char × List Char))
    (k v : List Char) : btreeLookup (btreeInsert m k v) k = some v := by
  induction m with
  | nil => simp [btreeInsert, btreeLookup]
  | cons a rest ih =>
    obtain ⟨k', v'⟩ := a
    by_cases h : k = k'
    · simp [btreeInsert, btreeLookup, h]
    · simp [btreeInsert, btreeLookup, h, ih]

theorem btreeLookup_insert_ne (m : List (List Char × List Char))
    (k v k' : List Char) (h : k' ≠ k) :
    btreeLookup (btreeInsert m k v) k' = btreeLookup m k' := by
  induction m with
  | nil => simp [btreeInsert, btreeLookup, h]
  | cons a rest ih =>
    obtain ⟨k₀, v₀⟩ := a
    by_cases h0 : k = k₀
    · subst h0
      simp [btreeInsert, btreeLookup, h]
    · by_cases h1 : k' = k₀
      · simp [btreeInsert, btreeLookup, h0, h1]
      · simp [btreeInsert, btreeLookup, h0, h1, ih]

theorem processLine_known {raw : List Char} (os : OsRelease) (f : FieldTag)
    (h : starts_with (strTrim raw) (fieldPat f) = true) :
    processLine os raw =
      (parse_line (strTrim raw) (fieldPat f).length).map
        (fun v => setField os f v) := by
  simp only [processLine]
  rw [keyTable_find_some f h]

theorem processLine_skip {raw : List Char} (os : OsRelease)
    (hf : ∀ f, starts_with (strTrim raw) (fieldPat f) = false)
    (hv : ∀ k v, splitAtEq (strTrim raw) = some (k, v) → v = []) :
    processLine os raw = some os := by
  simp only [processLine]
  rw [keyTable_find_none hf]
  cases hs : splitAtEq (strTrim raw) with
  | none => rfl
  | some kv =>
    obtain ⟨k, v⟩ := kv
    have hv' := hv k v hs
    subst hv'
    simp

theorem processLine_extra_insert {raw : List Char} (os : OsRelease)
    {k v : List Char}
    (hf : ∀ f, starts_with (strTrim raw) (fieldPat f) = false)
    (hs : splitAtEq (strTrim raw) = some (k, v)) (hv : v ≠ []) :
    processLine os raw =
      some { os with extra := btreeInsert os.extra k v } := by
  simp only [processLine]
  rw [keyTable_find_none hf, hs]
  simp [hv]

theorem fieldPat_head :
    ∀ f : FieldTag, fieldPat f ≠ [] ∧ (fieldPat f).head? ≠ some '=' ∧
      (fieldPat f).head? ≠ some '#' := by decide

theorem no_known_of_head {ln : List Char}
    (h : ln = [] ∨ ln.head? = some '=' ∨ ln.head? = some '#') :
    ∀ f, starts_with ln (fieldPat f) = false := by
  intro f
  cases hsw : starts_with ln (fieldPat f) with
  | false => rfl
  | true =>
    exfalso
    obtain ⟨hne, hq, hh⟩ := fieldPat_head f
    cases hp : (fieldPat f).head? with
    | none => exact hne (List.head?_eq_none_iff.mp hp)
    | some c =>
      have hl := starts_with_head hsw hp
      rcases h with h | h | h
      · rw [h] at hl; simp at hl
      · rw [hl] at h
        exact hq (hp.trans (congrArg some (Option.some.inj h)))
      · rw [hl] at h
        exact hh (hp.trans (congrArg some (Option.some.inj h)))

theorem fieldKey_no_eq : ∀ f : FieldTag, '=' ∉ fieldKey f := by decide

theorem fieldPat_mem_map : ∀ f : FieldTag, fieldPat f ∈ keyTable.map Prod.fst := by
  decide

theorem no_known_of_unknown_key {k v : List Char} (hk : '=' ∉ k)
    (hmem : (k ++ ['=']) ∉ keyTable.map Prod.fst) :
    ∀ f, starts_with (k ++ '=' :: v) (fieldPat f) = false := by
  intro f
  cases hsw : starts_with (k ++ '=' :: v) (fieldPat f) with
  | false => rfl
  | true =>
    exfalso
    have heq : fieldKey f = k := (starts_with_keyEq (fieldKey_no_eq f) hk).mp hsw
    exact hmem (by rw [← heq]; exact fieldPat_mem_map f)

theorem split_none_skip {l : List Char} (h0 : splitAtEq l = none) :
    ∀ k v : List Char, splitAtEq l = some (k, v) → v = [] :=
  fun _ _ h => Option.noConfusion (h0.symm.trans h)

theorem split_emptyval_skip {l k0 : List Char} (h0 : splitAtEq l = some (k0, [])) :
    ∀ k v : List Char, splitAtEq l = some (k, v) → v = [] := by
  intro k v h
  have h1 := Option.some.inj (h0.symm.trans h)
  injection h1 with h2 h3
  exact h3.symm

/-! ### Claims -/

/-- Claim C1 (code bug): the spec states that parsing never fails, but the
code panics on the line `NAME="` — the trimmed value is the single character
`"`, `is_enclosed_with` accepts it (the same character passes both endpoint
tests) and `parse_line` then slices `[1..0]`, whose start exceeds its end.
The panic is modelled as `none`; this theorem evaluates the parser at the
failing input. -/
theorem c1_panic_eval : OsRelease.from_iter [String.toList "NAME=\""] = none := by
  decide

/-- Claim C2 (code bug): the spec states that a single-character value equal
to a quote character is not treated as quote-enclosed; in the code
`is_enclosed_with` does treat it as enclosed (no length check exists), and
`parse_line` then panics on the inverted slice `[1..0]` (modelled as `none`)
instead of assigning the one-character string verbatim. -/
theorem c2_panic_eval :
    is_enclosed_with ['"'] '"' = true ∧
    is_enclosed_with ['\''] '\'' = true ∧
    parse_line (String.toList "NAME=\"") 5 = none ∧
    parse_line (String.toList "ID='") 3 = none := by
  decide

/-- Claim C3 counterexample: the claim states that a `KEY=` line is dropped
entirely for all keys, including the 18 known ones; but the line `NAME=`
assigns the empty string to the `name` field, so the parse result differs
from the default record. -/
theorem c3_counterexample :
    OsRelease.from_iter [String.toList "NAME="] ≠ some OsRelease.default := by
  decide

/-- Claim C3 amended: a trimmed line `KEY=` whose key is unknown (its `KEY=`
form is none of the 18 known patterns) is dropped entirely, while for each of
the 18 known keys the line `KEY=` assigns the empty string to the
corresponding field (leaving the overflow map untouched, as `setField` only
touches the named field). -/
theorem c3_amended :
    (∀ (os : OsRelease) (k : List Char), '=' ∉ k →
      strTrim (k ++ ['=']) = k ++ ['='] →
      (k ++ ['=']) ∉ keyTable.map Prod.fst →
      processLine os (k ++ ['=']) = some os)
    ∧ (∀ (os : OsRelease) (f : FieldTag),
        processLine os (fieldPat f) = some (setField os f [])) := by
  constructor
  · intro os k hk htrim hmem
    apply processLine_skip
    · intro f
      rw [htrim]
      exact no_known_of_unknown_key hk hmem f
    · intro k' v' hsplit
      rw [htrim] at hsplit
      exact split_emptyval_skip (splitAtEq_append k [] hk) k' v' hsplit
  · intro os f
    cases f <;> rfl

/-- Claim C3 amended, witness: the unknown-key branch at the concrete line
`FOO=` starting from the default record. -/
theorem c3_amended_witness :
    processLine OsRelease.default (String.toList "FOO" ++ ['=']) =
      some OsRelease.default :=
  c3_amended.1 OsRelease.default (String.toList "FOO") (by decide) (by decide)
    (by decide)

/-- Claim C4 counterexample: the claim states that every comment line is
ignored, but the comment line `#A=B` is inserted into the overflow map
(key `#A`, value `B`), so the parse result differs from the default record. -/
theorem c4_counterexample :
    OsRelease.from_iter [String.toList "#A=B"] ≠ some OsRelease.default := by
  decide

/-- Claim C4 amended: a line whose trimmed form is blank or starts with `#`
is ignored provided it contains no `=` with a non-empty remainder after the
first `=`; a comment line such as `#A=B` instead lands in the overflow map
like any other unrecognized `KEY=value` line. -/
theorem c4_amended :
    ∀ (os : OsRelease) (raw : List Char),
      (strTrim raw = [] ∨ (strTrim raw).head? = some '#') →
      (∀ k v, splitAtEq (strTrim raw) = some (k, v) → v = []) →
      processLine os raw = some os := by
  intro os raw hh hv
  apply processLine_skip
  · refine no_known_of_head ?_
    rcases hh with h | h
    · exact Or.inl h
    · exact Or.inr (Or.inr h)
  · exact hv

/-- Claim C4 amended, witness: the comment line `# Comment` and the blank
line `   ` both leave the default record unchanged. -/
theorem c4_amended_witness :
    processLine OsRelease.default (String.toList "# Comment") =
      some OsRelease.default ∧
    processLine OsRelease.default (String.toList "   ") =
      some OsRelease.default :=
  ⟨c4_amended OsRelease.default (String.toList "# Comment")
      (Or.inr (by decide)) (split_none_skip (by decide)),
   c4_amended OsRelease.default (String.toList "   ")
      (Or.inl (by decide)) (split_none_skip (by decide))⟩

theorem foldlM_skip (lines : List (List Char)) :
    ∀ os : OsRelease,
      (∀ l ∈ lines,
        (∀ f, starts_with (strTrim l) (fieldPat f) = false) ∧
        (∀ k v, splitAtEq (strTrim l) = some (k, v) → v = [])) →
      lines.foldlM processLine os = some os := by
  induction lines with
  | nil => intro os _; rfl
  | cons l rest ih =>
    intro os h
    rw [List.foldlM_cons]
    have h1 := h l (List.mem_cons_self l rest)
    rw [processLine_skip os h1.1 h1.2]
    simpa using ih os fun l' hl' => h l' (List.mem_cons_of_mem l hl')

/-- Claim C5: when no trimmed line starts with a known pattern and no trimmed
line contains an `=` followed by at least one character, the parser returns
exactly the default record — name `Linux`, id `linux`, pretty name `Linux`,
every other field empty, and an empty overflow map. -/
theorem c5_default_record :
    ∀ lines : List (List Char),
      (∀ l ∈ lines,
        (∀ f, starts_with (strTrim l) (fieldPat f) = false) ∧
        (∀ k v, splitAtEq (strTrim l) = some (k, v) → v = [])) →
      OsRelease.from_iter lines = some OsRelease.default ∧
      OsRelease.default.name = String.toList "Linux" ∧
      OsRelease.default.id = String.toList "linux" ∧
      OsRelease.default.pretty_name = String.toList "Linux" ∧
      OsRelease.default.version = [] ∧
      OsRelease.default.id_like = [] ∧
      OsRelease.default.version_codename = [] ∧
      OsRelease.default.version_id = [] ∧
      OsRelease.default.ansi_color = [] ∧
      OsRelease.default.cpe_name = [] ∧
      OsRelease.default.home_url = [] ∧
      OsRelease.default.documentation_url = [] ∧
      OsRelease.default.support_url = [] ∧
      OsRelease.default.bug_report_url = [] ∧
      OsRelease.default.privacy_policy_url = [] ∧
      OsRelease.default.build_id = [] ∧
      OsRelease.default.variant = [] ∧
      OsRelease.default.variant_id = [] ∧
      OsRelease.default.logo = [] ∧
      OsRelease.default.extra = [] := by
  intro lines h
  exact ⟨foldlM_skip lines OsRelease.default h, rfl, rfl, rfl, rfl, rfl, rfl,
    rfl, rfl, rfl, rfl, rfl, rfl, rfl, rfl, rfl, rfl, rfl, rfl, rfl⟩

/-- Claim C5, witness: a comment line, a blank line, a separator-free line
and an `=`-final line together still produce the default record. -/
theorem c5_witness :
    OsRelease.from_iter
      [String.toList "# hey", String.toList "  ", String.toList "no separator",
       String.toList "TRAILING="] = some OsRelease.default :=
  (c5_default_record _ (by
    intro l hl
    fin_cases hl
    · exact ⟨by decide, split_none_skip (by decide)⟩
    · exact ⟨by decide, split_none_skip (by decide)⟩
    · exact ⟨by decide, split_none_skip (by decide)⟩
    · exact ⟨by decide, @split_emptyval_skip (strTrim (String.toList "TRAILING="))
        (String.toList "TRAILING") (by decide)⟩)).1

/-- Claim C6: a trimmed line `KEY=value` whose `KEY=` form is none of the 18
known patterns and whose value is non-empty is inserted into the overflow map
verbatim — the exact key and the exact value, no trimming and no
quote-stripping — and looking the key up afterwards returns that value. -/
theorem c6_overflow_exact :
    ∀ (os : OsRelease) (k v : List Char), '=' ∉ k → v ≠ [] →
      strTrim (k ++ '=' :: v) = k ++ '=' :: v →
      (k ++ ['=']) ∉ keyTable.map Prod.fst →
      processLine os (k ++ '=' :: v) =
        some { os with extra := btreeInsert os.extra k v } ∧
      btreeLookup (btreeInsert os.extra k v) k = some v := by
  intro os k v hk hv htrim hmem
  refine ⟨?_, btreeLookup_insert_self _ _ _⟩
  apply processLine_extra_insert
  · intro f
    rw [htrim]
    exact no_known_of_unknown_key hk hmem f
  · rw [htrim]
    exact splitAtEq_append k v hk
  · exact hv

/-- Claim C6, witness: the line `EXTRA_KEY=\" thing \"` (an unknown key with
quotes and inner spaces in its value) is stored character for character, with
the quotes and spaces intact. -/
theorem c6_witness :
    processLine OsRelease.default
        (String.toList "EXTRA_KEY" ++ '=' :: String.toList "\" thing \"") =
      some { OsRelease.default with
              extra := btreeInsert OsRelease.default.extra
                (String.toList "EXTRA_KEY") (String.toList "\" thing \"") } ∧
    btreeLookup
        (btreeInsert OsRelease.default.extra (String.toList "EXTRA_KEY")
          (String.toList "\" thing \""))
        (String.toList "EXTRA_KEY") = some (String.toList "\" thing \"") :=
  c6_overflow_exact OsRelease.default (String.toList "EXTRA_KEY")
    (String.toList "\" thing \"") (by decide) (by decide) (by decide) (by decide)

/-- Claim C7: on a known-pattern line, when the value (after the trim inside
`parse_line`) has length at least 2 and both starts and ends with the same
quote character, the assigned field value is the value with exactly that one
outermost pair of quotes removed; a value not enclosed by either quote
character (in particular one with an unbalanced quote) is assigned as-is;
and `NAME="Pop!_OS"` yields name `Pop!_OS`. -/
theorem c7_quote_stripping :
    (∀ (os : OsRelease) (f : FieldTag) (v : List Char) (q : Char),
      (q = '"' ∨ q = '\'') →
      strTrim (fieldPat f ++ v) = fieldPat f ++ v →
      2 ≤ (strTrim v).length →
      (strTrim v).head? = some q →
      (strTrim v).getLast? = some q →
      processLine os (fieldPat f ++ v) =
        some (setField os f (((strTrim v).drop 1).dropLast)))
    ∧ (∀ (os : OsRelease) (f : FieldTag) (v : List Char),
      strTrim (fieldPat f ++ v) = fieldPat f ++ v →
      is_enclosed_with (strTrim v) '"' = false →
      is_enclosed_with (strTrim v) '\'' = false →
      processLine os (fieldPat f ++ v) = some (setField os f (strTrim v)))
    ∧ (OsRelease.from_iter [String.toList "NAME=\"Pop!_OS\""]).map
        OsRelease.name = some (String.toList "Pop!_OS") := by
  refine ⟨?_, ?_, by decide⟩
  · intro os f v q hq htrim hlen hhead hlast
    have hstart : starts_with (strTrim (fieldPat f ++ v)) (fieldPat f) = true := by
      rw [htrim]; exact starts_with_append _ _
    rw [processLine_known os f hstart, htrim]
    have hdrop : (fieldPat f ++ v).drop (fieldPat f).length = v :=
      List.drop_left _ _
    have henc : (is_enclosed_with (strTrim v) '"' ||
        is_enclosed_with (strTrim v) '\'') = true := by
      rcases hq with rfl | rfl <;> simp [is_enclosed_with, hhead, hlast]
    have htake : ((strTrim v).drop 1).take ((strTrim v).length - 2) =
        ((strTrim v).drop 1).dropLast := by
      rw [List.dropLast_eq_take, List.length_drop]
      congr 1
    simp only [parse_line, hdrop, henc, if_true, hlen, htake, Option.map_some']
  · intro os f v htrim hb1 hb2
    have hstart : starts_with (strTrim (fieldPat f ++ v)) (fieldPat f) = true := by
      rw [htrim]; exact starts_with_append _ _
    rw [processLine_known os f hstart, htrim]
    have hdrop : (fieldPat f ++ v).drop (fieldPat f).length = v :=
      List.drop_left _ _
    simp only [parse_line, hdrop, hb1, hb2, Bool.or_self, Bool.false_eq_true,
      if_false, Option.map_some']

/-- Claim C7, witness: the quoted branch at `VERSION='18.04 LTS'` (single
quotes) and the unbalanced branch at `ID="x` starting from the default
record. -/
theorem c7_witness :
    processLine OsRelease.default
        (fieldPat FieldTag.version ++ String.toList "'18.04 LTS'") =
      some (setField OsRelease.default FieldTag.version
        (((strTrim (String.toList "'18.04 LTS'")).drop 1).dropLast)) ∧
    processLine OsRelease.default (fieldPat FieldTag.id ++ String.toList "\"x") =
      some (setField OsRelease.default FieldTag.id
        (strTrim (String.toList "\"x"))) :=
  ⟨c7_quote_stripping.1 OsRelease.default FieldTag.version
      (String.toList "'18.04 LTS'") '\'' (Or.inr rfl) (by decide) (by decide)
      (by decide) (by decide),
   c7_quote_stripping.2.1 OsRelease.default FieldTag.id (String.toList "\"x")
      (by decide) (by decide) (by decide)⟩

/-- Claim C8: pattern matching is exact including the trailing `=` — a
trimmed line starting with the pattern of field `f` assigns exactly `f` (via
`parse_line`) and leaves every other known field and the overflow map
unchanged; in particular `VERSION_ID=17` assigns version_id and leaves
version untouched, `ID_LIKE=debian` assigns id_like and leaves id at its
default, and `VERSION_CODENAME=bionic` assigns version_codename and leaves
version untouched. -/
theorem c8_exact_dispatch :
    (∀ (os : OsRelease) (line : List Char) (f : FieldTag),
      starts_with (strTrim line) (fieldPat f) = true →
      processLine os line =
        (parse_line (strTrim line) (fieldPat f).length).map
          (fun v => setField os f v) ∧
      (∀ v g, g ≠ f → getField (setField os f v) g = getField os g) ∧
      (∀ v, getField (setField os f v) f = v) ∧
      (∀ v, (setField os f v).extra = os.extra))
    ∧ (OsRelease.from_iter [String.toList "VERSION_ID=17"]).map
        (fun r => (r.version_id, r.version)) = some (String.toList "17", [])
    ∧ (OsRelease.from_iter [String.toList "ID_LIKE=debian"]).map
        (fun r => (r.id_like, r.id)) =
          some (String.toList "debian", String.toList "linux")
    ∧ (OsRelease.from_iter [String.toList "VERSION_CODENAME=bionic"]).map
        (fun r => (r.version_codename, r.version)) =
          some (String.toList "bionic", []) := by
  refine ⟨?_, by decide, by decide, by decide⟩
  intro os line f h
  exact ⟨processLine_known os f h,
    fun v g hg => getField_setField_ne os f g v hg,
    fun v => getField_setField_self os f v,
    fun v => setField_extra os f v⟩

/-- Claim C8, witness: the dispatch equation at `PRETTY_NAME=x` from the
default record, and the frame fact that assigning pretty_name leaves
version unchanged. -/
theorem c8_witness :
    processLine OsRelease.default (String.toList "PRETTY_NAME=x") =
      (parse_line (strTrim (String.toList "PRETTY_NAME=x"))
        (fieldPat FieldTag.pretty_name).length).map
        (fun v => setField OsRelease.default FieldTag.pretty_name v) ∧
    getField (setField OsRelease.default FieldTag.pretty_name
        (String.toList "x")) FieldTag.version =
      getField OsRelease.default FieldTag.version :=
  ⟨(c8_exact_dispatch.1 OsRelease.default (String.toList "PRETTY_NAME=x")
      FieldTag.pretty_name (by decide)).1,
   (c8_exact_dispatch.1 OsRelease.default (String.toList "PRETTY_NAME=x")
      FieldTag.pretty_name (by decide)).2.1 (String.toList "x")
      FieldTag.version (by decide)⟩

/-- Claim C9: a trimmed line `=value` with non-empty value matches no known
pattern, and is inserted into the overflow map under the empty-string key;
the empty key is accepted and looking it up returns the value. -/
theorem c9_empty_key_overflow :
    ∀ (os : OsRelease) (v : List Char), v ≠ [] →
      strTrim ('=' :: v) = '=' :: v →
      processLine os ('=' :: v) =
        some { os with extra := btreeInsert os.extra [] v } ∧
      btreeLookup (btreeInsert os.extra [] v) [] = some v := by
  intro os v hv htrim
  refine ⟨?_, btreeLookup_insert_self _ _ _⟩
  apply processLine_extra_insert
  · intro f
    rw [htrim]
    exact @no_known_of_head ('=' :: v) (Or.inr (Or.inl rfl)) f
  · rw [htrim]
    exact splitAtEq_append [] v (by simp)
  · exact hv

/-- Claim C9, witness: the line `=value` inserts overflow key `""` with
value `value` into the default record. -/
theorem c9_witness :
    processLine OsRelease.default ('=' :: String.toList "value") =
      some { OsRelease.default with
              extra := btreeInsert OsRelease.default.extra []
                (String.toList "value") } ∧
    btreeLookup (btreeInsert OsRelease.default.extra [] (String.toList "value"))
        [] = some (String.toList "value") :=
  c9_empty_key_overflow OsRelease.default (String.toList "value") (by decide)
    (by decide)

/-- Claim C10: one line changes at most one component of the record — the
loop body either assigns a single known field, or inserts a single overflow
binding, or returns the record unchanged (the panic case aside, in which no
record is produced at all); assigning a field leaves all other fields and
the overflow untouched, and inserting an overflow key leaves every other
overflow key's lookup unchanged. -/
theorem c10_frame :
    (∀ (os : OsRelease) (raw : List Char) (os' : OsRelease),
      processLine os raw = some os' →
        (∃ f v, os' = setField os f v) ∨
        (∃ k v, os' = { os with extra := btreeInsert os.extra k v }) ∨
        os' = os)
    ∧ (∀ (os : OsRelease) (f : FieldTag) (v : List Char) (g : FieldTag),
        g ≠ f → getField (setField os f v) g = getField os g)
    ∧ (∀ (os : OsRelease) (f : FieldTag) (v : List Char),
        (setField os f v).extra = os.extra)
    ∧ (∀ (m : List (List Char × List Char)) (k v k' : List Char), k' ≠ k →
        btreeLookup (btreeInsert m k v) k' = btreeLookup m k') := by
  refine ⟨?_, fun os f v g hg => getField_setField_ne os f g v hg,
    fun os f v => setField_extra os f v,
    fun m k v k' hne => btreeLookup_insert_ne m k v k' hne⟩
  intro os raw os' h
  simp only [processLine] at h
  split at h
  · rw [Option.map_eq_some'] at h
    obtain ⟨a, _, hb⟩ := h
    exact Or.inl ⟨_, a, hb.symm⟩
  · split at h
    · split at h
      · exact Or.inr (Or.inr (Option.some.inj h).symm)
      · exact Or.inr (Or.inl ⟨_, _, (Option.some.inj h).symm⟩)
    · exact Or.inr (Or.inr (Option.some.inj h).symm)

/-- Claim C10, witness: processing `NAME=X` from the default record is a
single-field assignment; the frame facts instantiated concretely. -/
theorem c10_witness :
    ((∃ f v, setField OsRelease.default FieldTag.name (String.toList "X") =
        setField OsRelease.default f v) ∨
      (∃ k v, setField OsRelease.default FieldTag.name (String.toList "X") =
        { OsRelease.default with
            extra := btreeInsert OsRelease.default.extra k v }) ∨
      setField OsRelease.default FieldTag.name (String.toList "X") =
        OsRelease.default) ∧
    getField (setField OsRelease.default FieldTag.name (String.toList "X"))
        FieldTag.id = getField OsRelease.default FieldTag.id ∧
    (setField OsRelease.default FieldTag.name (String.toList "X")).extra =
      OsRelease.default.extra ∧
    btreeLookup
        (btreeInsert [(String.toList "B", String.toList "2")]
          (String.toList "A") (String.toList "1")) (String.toList "B") =
      btreeLookup [(String.toList "B", String.toList "2")]
        (String.toList "B") :=
  ⟨c10_frame.1 OsRelease.default (String.toList "NAME=X")
      (setField OsRelease.default FieldTag.name (String.toList "X"))
      (by decide),
   c10_frame.2.1 OsRelease.default FieldTag.name (String.toList "X")
      FieldTag.id (by decide),
   c10_frame.2.2.1 OsRelease.default FieldTag.name (String.toList "X"),
   c10_frame.2.2.2 [(String.toList "B", String.toList "2")]
      (String.toList "A") (String.toList "1") (String.toList "B") (by decide)⟩
